import Mathlib

/-!
Shallow embedding of the Fission router's function-reference resolver
(package `router`, file defining `functionReferenceResolver`): the data
model (`resolveResult`, `functionWeightDistribution`,
`namespacedTriggerReference`), the operations `resolve`, `resolveByName`,
`resolveByFunctionWeights`, `delete` and `copy`, and the Resolution Cache
contract the resolver consumes.

Modelling choices, all justified next to the definitions:
* Go maps are embedded as association lists; a Go `range` over a map
  delivers the pairs in an arbitrary, run-dependent order, so a
  `map[string]int` field that the code iterates is embedded as the list of
  pairs in the order the iteration delivers them (an arbitrary permutation
  of the map's contents).
* Fallible Go functions returning `(T, error)` become `Except String T`.
* The number of Function Store lookups (`informer.GetStore().Get` calls)
  performed by an operation is returned alongside its result, so that
  cache-hit / fresh-lookup claims are statable.
-/

namespace router

/-- `fv1.Function`: a cluster function object. Only the metadata namespace
and name are inspected by the resolver; `payload` stands for the rest of
the object so that distinct objects are distinguishable. -/
structure Function where
  ns : String
  name : String
  payload : Nat
deriving DecidableEq, Repr

/-- The per-namespace function store behind a `k8sCache.SharedIndexInformer`
(`informer.GetStore()`): an indexed set of function objects, looked up by
the namespace/name key computed from an object's metadata. -/
abbrev FuncStore := List Function

/-- `informer.GetStore().Get(&fv1.Function{ObjectMeta: {Namespace: ns, Name: name}})`:
look up the object stored under the namespace/name key. The k8s store keys
every object by its own metadata, so the returned object's fields match the
requested key. Returns the `(obj, isExist)` pair as an `Option`. -/
def storeGet (s : FuncStore) (ns name : String) : Option Function :=
  s.find? (fun f => f.ns == ns && f.name == name)

/-- `fv1.FunctionReference`: the discriminated function-reference
specification carried by a trigger. `type` is the Go string tag;
`functionWeights` embeds the Go `map[string]int` as the list of
(name, weight) pairs in the order a `range` iteration delivers them —
Go randomizes that order, so it is an arbitrary permutation of the map's
pairs, and a map built from distinct keys yields a list with `Nodup` keys. -/
structure FunctionReference where
  type : String
  name : String
  functionWeights : List (String × Int)
deriving DecidableEq, Repr

/-- `fv1.FunctionReferenceTypeFunctionName`. -/
def FunctionReferenceTypeFunctionName : String := "name"

/-- `fv1.FunctionReferenceTypeFunctionWeights`. -/
def FunctionReferenceTypeFunctionWeights : String := "function-weights"

/-- `fv1.HTTPTrigger`: the fields the resolver reads — object metadata
(namespace, name, resource version) and the function reference. -/
structure HTTPTrigger where
  ns : String
  name : String
  resourceVersion : String
  functionReference : FunctionReference
deriving DecidableEq, Repr

/-- `resolveResultType` (Go `int` with iota constants). -/
abbrev resolveResultType := Nat

/-- `resolveResultSingleFunction = iota` (0). -/
def resolveResultSingleFunction : resolveResultType := 0

/-- `resolveResultMultipleFunctions` (1). -/
def resolveResultMultipleFunctions : resolveResultType := 1

/-- `functionWeightDistribution`: one entry of the weighted distribution. -/
structure functionWeightDistribution where
  name : String
  weight : Int
  sumPrefix : Int
deriving DecidableEq, Repr

/-- Lookup in a Go `map[string]*fv1.Function` embedded as an association
list where later inserts shadow earlier ones (see `mapInsert`). -/
def mapLookup (m : List (String × Function)) (k : String) : Option Function :=
  match m with
  | [] => none
  | (k', v) :: rest => if k' = k then some v else mapLookup rest k

/-- `m[k] = v` on a Go map embedded as an association list: the new pair
shadows any earlier binding of `k` under `mapLookup`. -/
def mapInsert (m : List (String × Function)) (k : String) (v : Function) :
    List (String × Function) :=
  (k, v) :: m

/-- `resolveResult`: the result of resolving a function reference — the
embedded type tag, the function map, and the weighted distribution list
(the Go zero value of the slice embeds as `[]`). -/
structure resolveResult where
  rrType : resolveResultType
  functionMap : List (String × Function)
  functionWtDistributionList : List functionWeightDistribution
deriving DecidableEq, Repr

/-- `namespacedTriggerReference`: the Resolution Cache key — a trigger
reference plus a namespace. -/
structure namespacedTriggerReference where
  ns : String
  triggerName : String
  triggerResourceVersion : String
deriving DecidableEq, Repr

/-- Modelled from the spec: the Resolution Cache
(`cache.Cache[namespacedTriggerReference, resolveResult]` of `pkg/cache`,
whose source is not among the provided files). Spec §4.2: a generic
key/value store with `get(key) → (value, found)`, `set` replacing or
inserting, `delete` removing if present, and a snapshot copy. TTL expiry
is not modelled: every claim treated here excludes expiry ("no TTL
expiry", "until its TTL elapses"). -/
abbrev Cache := List (namespacedTriggerReference × resolveResult)

/-- Modelled from the spec: cache `Get` — the stored value for exactly this
key, a miss otherwise. -/
def cacheGet (c : Cache) (k : namespacedTriggerReference) : Option resolveResult :=
  match c with
  | [] => none
  | (k', v) :: rest => if k' = k then some v else cacheGet rest k

/-- Modelled from the spec: cache `Delete` — removes the entry for exactly
this key if present; a no-op when the key is absent. -/
def cacheDelete (c : Cache) (k : namespacedTriggerReference) : Cache :=
  match c with
  | [] => []
  | (k', v) :: rest =>
    if k' = k then cacheDelete rest k else (k', v) :: cacheDelete rest k

/-- Modelled from the spec: cache `Set` — replaces or inserts the value
stored under the key. -/
def cacheSet (c : Cache) (k : namespacedTriggerReference) (v : resolveResult) : Cache :=
  (k, v) :: cacheDelete c k

/-- `functionReferenceResolver`: the resolver state — its Resolution Cache
and the per-namespace informer map (`map[string]k8sCache.SharedIndexInformer`,
embedded as an association list read by `lookupNs`). The logger performs no
state change and is omitted. -/
structure functionReferenceResolver where
  refCache : Cache
  funcInformer : List (String × FuncStore)
deriving DecidableEq, Repr

/-- Read of the Go map `frr.funcInformer[namespace]`. -/
def lookupNs (m : List (String × FuncStore)) (ns : String) : Option FuncStore :=
  match m with
  | [] => none
  | (k, v) :: rest => if k = ns then some v else lookupNs rest ns

/-- `getInformerByNamespace`: the informer for the namespace, or the
"informer for namespace ... not found" error. -/
def getInformerByNamespace (frr : functionReferenceResolver) (ns : String) :
    Except String FuncStore :=
  match lookupNs frr.funcInformer ns with
  | some informer => .ok informer
  | none => .error ("informer for namespace " ++ ns ++ " not found")

/-- `resolveByName`: look up one function by name in a namespace; builds a
single-function result. Returns the result (or error) together with the
number of Function Store lookups performed. -/
def resolveByName (frr : functionReferenceResolver) (ns name : String) :
    Except String resolveResult × Nat :=
  match getInformerByNamespace frr ns with
  | .error e => (.error e, 0)
  | .ok informer =>
    match storeGet informer ns name with
    | none => (.error ("function " ++ ns ++ "/" ++ name ++ " does not exist"), 1)
    | some f =>
      (.ok { rrType := resolveResultSingleFunction,
             functionMap := mapInsert [] f.name f,
             functionWtDistributionList := [] }, 1)

/-- Go `int` (64-bit) addition wraps on overflow; `wrap64` reduces an
unbounded integer into the machine range `[-2^63, 2^63)`. -/
def wrap64 (x : Int) : Int :=
  (x + 2 ^ 63) % 2 ^ 64 - 2 ^ 63

/-- The loop body of `resolveByFunctionWeights`: iterate the
(functionName, functionWeight) pairs in the order given, threading the
function map, the distribution list and the running `sumPrefix` exactly as
the Go loop does, and aborting on the first missing informer or function.
`sumPrefix = sumPrefix + functionWeight` is Go `int` (int64) addition, so
the running sum is wrapped with `wrap64`. -/
def resolveWeightsLoop (frr : functionReferenceResolver) (ns : String) :
    List (String × Int) → List (String × Function) →
    List functionWeightDistribution → Int →
    Except String (List (String × Function) × List functionWeightDistribution) × Nat
  | [], functionMap, fnWtDistrList, _ => (.ok (functionMap, fnWtDistrList), 0)
  | (functionName, functionWeight) :: rest, functionMap, fnWtDistrList, sumPrefix =>
    match getInformerByNamespace frr ns with
    | .error e => (.error e, 0)
    | .ok informer =>
      match storeGet informer ns functionName with
      | none =>
        (.error ("function " ++ ns ++ "/" ++ functionName ++ " does not exist"), 1)
      | some f =>
        let res := resolveWeightsLoop frr ns rest (mapInsert functionMap f.name f)
          (fnWtDistrList ++
            [{ name := functionName, weight := functionWeight,
               sumPrefix := wrap64 (sumPrefix + functionWeight) }])
          (wrap64 (sumPrefix + functionWeight))
        (res.1, res.2 + 1)

/-- `resolveByFunctionWeights`: iterate the reference's function-weights
pairs (in the order the Go map iteration delivers them), look each function
up, and build the multiple-functions result with the accumulated
distribution list. -/
def resolveByFunctionWeights (frr : functionReferenceResolver) (ns : String)
    (fr : FunctionReference) : Except String resolveResult × Nat :=
  match resolveWeightsLoop frr ns fr.functionWeights [] [] 0 with
  | (.error e, n) => (.error e, n)
  | (.ok (functionMap, fnWtDistrList), n) =>
    (.ok { rrType := resolveResultMultipleFunctions,
           functionMap := functionMap,
           functionWtDistributionList := fnWtDistrList }, n)

/-- The `namespacedTriggerReference` that `resolve` and `delete` build from
a trigger's metadata. -/
def triggerKey (trigger : HTTPTrigger) : namespacedTriggerReference :=
  { ns := trigger.ns, triggerName := trigger.name,
    triggerResourceVersion := trigger.resourceVersion }

/-- `resolve`: translate a trigger's function reference to a
`resolveResult` — serve from the cache on a hit; on a miss dispatch on the
reference type, and cache the result only on success. Returns the result
(or error), the resolver state after the call, and the number of Function
Store lookups performed. -/
def resolve (frr : functionReferenceResolver) (trigger : HTTPTrigger) :
    Except String resolveResult × functionReferenceResolver × Nat :=
  let nfr := triggerKey trigger
  match cacheGet frr.refCache nfr with
  | some result => (.ok result, frr, 0)
  | none =>
    if trigger.functionReference.type = FunctionReferenceTypeFunctionName then
      match resolveByName frr nfr.ns trigger.functionReference.name with
      | (.error e, n) => (.error e, frr, n)
      | (.ok rr, n) =>
        (.ok rr, { frr with refCache := cacheSet frr.refCache nfr rr }, n)
    else if trigger.functionReference.type = FunctionReferenceTypeFunctionWeights then
      match resolveByFunctionWeights frr nfr.ns trigger.functionReference with
      | (.error e, n) => (.error e, frr, n)
      | (.ok rr, n) =>
        (.ok rr, { frr with refCache := cacheSet frr.refCache nfr rr }, n)
    else
      (.error ("unrecognized function reference type " ++
        trigger.functionReference.type), frr, 0)

/-- `delete`: build the key from the three fields and remove it from the
cache. The error component is modelled from the spec: deletion of an
absent key is "a no-op (not an error)", so the returned error is always
`none`. -/
def delete (frr : functionReferenceResolver) (ns triggerName triggerRV : String) :
    functionReferenceResolver × Option String :=
  ({ frr with
     refCache := cacheDelete frr.refCache
       { ns := ns, triggerName := triggerName,
         triggerResourceVersion := triggerRV } }, none)

/-- `copy`: a point-in-time snapshot of the cached (key → result) pairs
(`frr.refCache.Copy()`, modelled from the spec as the cache's contents). -/
def copy (frr : functionReferenceResolver) : Cache :=
  frr.refCache

/-! Specification-side helpers: predicates and reference constructions used
to state properties of the resolver. -/

/-- The distribution list the weights loop builds from a running sum `acc`
and the (name, weight) pairs in iteration order: one entry per pair,
carrying the wrapped (int64) cumulative sum up to and including that
pair. -/
def buildDist (acc : Int) : List (String × Int) → List functionWeightDistribution
  | [] => []
  | (nm, w) :: rest =>
    { name := nm, weight := w, sumPrefix := wrap64 (acc + w) } ::
      buildDist (wrap64 (acc + w)) rest

/-- The wrapped (int64) running sum of a list of weights, starting from
`acc`. -/
def wrapSum (acc : Int) : List Int → Int
  | [] => acc
  | w :: ws => wrapSum (wrap64 (acc + w)) ws

/-- The distribution list built with exact (unbounded) cumulative sums:
what the loop computes whenever no int64 overflow occurs. -/
def buildDistExact (acc : Int) : List (String × Int) → List functionWeightDistribution
  | [] => []
  | (nm, w) :: rest =>
    { name := nm, weight := w, sumPrefix := acc + w } :: buildDistExact (acc + w) rest

/-- The last entry's `sumPrefix` of a distribution list (0 for an empty
list). -/
def lastSumPrefix : List functionWeightDistribution → Int
  | [] => 0
  | [e] => e.sumPrefix
  | _ :: e :: rest => lastSumPrefix (e :: rest)

/-- The integers are non-decreasing in list order. -/
def nonDecreasingB : List Int → Bool
  | [] => true
  | [_] => true
  | a :: b :: rest => decide (a ≤ b) && nonDecreasingB (b :: rest)

/-- Between adjacent entries, a positive weight forces a strictly larger
prefix sum. -/
def strictWherePositiveB : List functionWeightDistribution → Bool
  | [] => true
  | [_] => true
  | a :: b :: rest =>
    decide (0 < b.weight → a.sumPrefix < b.sumPrefix) &&
      strictWherePositiveB (b :: rest)

/-- The function names a reference points at: the single name for a by-name
reference, the weights' keys for a by-weights one, nothing for an
unrecognized kind. -/
def referencedNames (fr : FunctionReference) : List String :=
  if fr.type = FunctionReferenceTypeFunctionName then [fr.name]
  else if fr.type = FunctionReferenceTypeFunctionWeights then
    fr.functionWeights.map Prod.fst
  else []

/-- The conditions under which resolution fails on a cache miss: an
unrecognized reference kind, a missing informer while at least one function
is referenced, or a referenced function absent from the store. -/
def errorCondition (frr : functionReferenceResolver) (t : HTTPTrigger) : Prop :=
  (t.functionReference.type ≠ FunctionReferenceTypeFunctionName ∧
   t.functionReference.type ≠ FunctionReferenceTypeFunctionWeights) ∨
  (referencedNames t.functionReference ≠ [] ∧
   lookupNs frr.funcInformer t.ns = none) ∨
  (∃ store, lookupNs frr.funcInformer t.ns = some store ∧
    ∃ nm ∈ referencedNames t.functionReference, storeGet store t.ns nm = none)

/-- The result invariant relating the function map to the distribution
list: when the list is non-empty, the map's key set equals the set of names
in the list. -/
def rrInv (rr : resolveResult) : Prop :=
  rr.functionWtDistributionList ≠ [] →
    ∀ nm, (mapLookup rr.functionMap nm).isSome = true ↔
      nm ∈ rr.functionWtDistributionList.map functionWeightDistribution.name

/-- The resolver state after caching a result under a key (abbreviates the
state `resolve` produces on a successful miss). -/
def afterSet (frr : functionReferenceResolver) (k : namespacedTriggerReference)
    (rr : resolveResult) : functionReferenceResolver :=
  { frr with refCache := cacheSet frr.refCache k rr }

/-! Concrete fixtures used by counterexamples and witnesses. -/

/-- Fixture: the function `default/fA`. -/
def fA : Function := { ns := "default", name := "fA", payload := 1 }

/-- Fixture: the function `default/fB`. -/
def fB : Function := { ns := "default", name := "fB", payload := 2 }

/-- Fixture: the `default` namespace's store holding `fA` and `fB`. -/
def storeEx : FuncStore := [fA, fB]

/-- Fixture: a resolver with an empty cache and one informer for the
`default` namespace. -/
def frrEx : functionReferenceResolver :=
  { refCache := [], funcInformer := [("default", storeEx)] }

/-- Fixture: the by-weights reference whose Go map `{"fA":70,"fB":30}` is
iterated in the order fA, fB. -/
def frAB : FunctionReference :=
  { type := FunctionReferenceTypeFunctionWeights, name := "",
    functionWeights := [("fA", 70), ("fB", 30)] }

/-- Fixture: the same Go map `{"fA":70,"fB":30}` iterated in the order
fB, fA — Go randomizes map iteration, so both orders occur. -/
def frBA : FunctionReference :=
  { type := FunctionReferenceTypeFunctionWeights, name := "",
    functionWeights := [("fB", 30), ("fA", 70)] }

/-- Fixture: a by-weights reference carrying a negative weight
(`map[string]int` admits them; nothing validates weights here). -/
def frNeg : FunctionReference :=
  { type := FunctionReferenceTypeFunctionWeights, name := "",
    functionWeights := [("fA", 1), ("fB", -1)] }

/-- Fixture: a by-weights reference whose non-negative int64 weights
overflow the running sum (`2^63 - 1` then `1`). -/
def frBig : FunctionReference :=
  { type := FunctionReferenceTypeFunctionWeights, name := "",
    functionWeights := [("fA", 2 ^ 63 - 1), ("fB", 1)] }

/-- Fixture: the trigger `(default, t2, v1)` carrying `frAB`. -/
def t2AB : HTTPTrigger :=
  { ns := "default", name := "t2", resourceVersion := "v1",
    functionReference := frAB }

/-- Fixture: the by-name trigger `(default, t1, v1)` referencing `fA`. -/
def t1A : HTTPTrigger :=
  { ns := "default", name := "t1", resourceVersion := "v1",
    functionReference :=
      { type := FunctionReferenceTypeFunctionName, name := "fA",
        functionWeights := [] } }

/-- Fixture: a by-name trigger referencing the absent function `f9`. -/
def tMissing : HTTPTrigger :=
  { ns := "default", name := "t9", resourceVersion := "v1",
    functionReference :=
      { type := FunctionReferenceTypeFunctionName, name := "f9",
        functionWeights := [] } }

/-- Fixture: a resolver with no informer registered for any namespace. -/
def frrNoStores : functionReferenceResolver :=
  { refCache := [], funcInformer := [] }

/-- Fixture: a by-weights trigger with an empty weights map, in a namespace
with no registered store. -/
def tEmptyWeights : HTTPTrigger :=
  { ns := "default", name := "t3", resourceVersion := "v1",
    functionReference :=
      { type := FunctionReferenceTypeFunctionWeights, name := "",
        functionWeights := [] } }

/-- Fixture: the multiple-functions result for `frAB` over `storeEx`. -/
def rrABval : resolveResult :=
  { rrType := resolveResultMultipleFunctions,
    functionMap := [("fB", fB), ("fA", fA)],
    functionWtDistributionList :=
      [{ name := "fA", weight := 70, sumPrefix := 70 },
       { name := "fB", weight := 30, sumPrefix := 100 }] }

/-- Fixture: the resolver state after `frrEx` resolves `t2AB` (the result
cached under the trigger's key). -/
def frrAfterT2 : functionReferenceResolver :=
  { refCache := [(triggerKey t2AB, rrABval)],
    funcInformer := [("default", storeEx)] }

/-- Fixture: the empty multiple-functions result an empty weights map
produces. -/
def rrEmptyVal : resolveResult :=
  { rrType := resolveResultMultipleFunctions, functionMap := [],
    functionWtDistributionList := [] }

/-- Fixture: the state after `frrNoStores` resolves `tEmptyWeights` (the
empty result cached under the trigger's key). -/
def frrNoStoresAfter : functionReferenceResolver :=
  { refCache := [(triggerKey tEmptyWeights, rrEmptyVal)], funcInformer := [] }

/-! Supporting lemmas. -/

/-- A successful store lookup returns the object stored under the requested
namespace/name key: its metadata matches the key. -/
theorem storeGet_some {s : FuncStore} {ns nm : String} {f : Function}
    (h : storeGet s ns nm = some f) : f.ns = ns ∧ f.name = nm := by
  have hp := List.find?_some h
  simpa [Bool.and_eq_true, beq_iff_eq] using hp

@[simp]
theorem triggerKey_ns (t : HTTPTrigger) : (triggerKey t).ns = t.ns := rfl

theorem cacheGet_delete_self (c : Cache) (k : namespacedTriggerReference) :
    cacheGet (cacheDelete c k) k = none := by
  induction c with
  | nil => rfl
  | cons p rest ih =>
    obtain ⟨k', v⟩ := p
    by_cases hk : k' = k
    · simp [cacheDelete, hk, ih]
    · simp [cacheDelete, cacheGet, hk, ih]

theorem cacheGet_delete_ne (c : Cache) (k k' : namespacedTriggerReference)
    (h : k' ≠ k) : cacheGet (cacheDelete c k) k' = cacheGet c k' := by
  induction c with
  | nil => rfl
  | cons p rest ih =>
    obtain ⟨k'', v⟩ := p
    by_cases hk : k'' = k
    · subst hk
      simp [cacheDelete, cacheGet, Ne.symm h, ih]
    · by_cases hk' : k'' = k'
      · subst hk'
        simp [cacheDelete, cacheGet, h, ih]
      · simp [cacheDelete, cacheGet, hk, hk', ih]

theorem cacheDelete_absent (c : Cache) (k : namespacedTriggerReference)
    (h : cacheGet c k = none) : cacheDelete c k = c := by
  induction c with
  | nil => rfl
  | cons p rest ih =>
    obtain ⟨k', v⟩ := p
    by_cases hk : k' = k
    · simp [cacheGet, hk] at h
    · simp [cacheGet, hk] at h
      simp [cacheDelete, hk, ih h]

theorem cacheGet_set_self (c : Cache) (k : namespacedTriggerReference)
    (v : resolveResult) : cacheGet (cacheSet c k v) k = some v := by
  simp [cacheSet, cacheGet]

theorem cacheGet_set_ne (c : Cache) (k k' : namespacedTriggerReference)
    (v : resolveResult) (h : k' ≠ k) :
    cacheGet (cacheSet c k v) k' = cacheGet c k' := by
  simp [cacheSet, cacheGet, Ne.symm h, cacheGet_delete_ne c k k' h]

/-- Any entry readable after a `cacheSet` is the new entry or an old one. -/
theorem cacheGet_set_cases {c : Cache} {k k' : namespacedTriggerReference}
    {v r : resolveResult} (h : cacheGet (cacheSet c k v) k' = some r) :
    (k' = k ∧ r = v) ∨ cacheGet c k' = some r := by
  by_cases hk : k' = k
  · subst hk
    rw [cacheGet_set_self] at h
    exact Or.inl ⟨rfl, (Option.some_inj.mp h).symm⟩
  · rw [cacheGet_set_ne c k k' v hk] at h
    exact Or.inr h

theorem mapLookup_insert_isSome (m : List (String × Function)) (k nm : String)
    (v : Function) :
    (mapLookup (mapInsert m k v) nm).isSome = true ↔
      nm = k ∨ (mapLookup m nm).isSome = true := by
  by_cases hk : k = nm
  · subst hk
    simp [mapInsert, mapLookup]
  · simp [mapInsert, mapLookup, hk, Ne.symm hk]

theorem buildDist_proj (fw : List (String × Int)) :
    ∀ acc, (buildDist acc fw).map (fun e => (e.name, e.weight)) = fw := by
  induction fw with
  | nil => intro acc; rfl
  | cons p rest ih =>
    intro acc
    obtain ⟨nm, w⟩ := p
    simp [buildDist, ih]

theorem wrap64_eq_self (x : Int) (h1 : -(2 ^ 63) ≤ x) (h2 : x < 2 ^ 63) :
    wrap64 x = x := by
  unfold wrap64
  have h3 : (0 : Int) ≤ x + 2 ^ 63 := by omega
  have h4 : x + 2 ^ 63 < 2 ^ 64 := by omega
  rw [Int.emod_eq_of_lt h3 h4]
  omega

theorem buildDist_get_sumPrefix (fw : List (String × Int)) :
    ∀ acc i e, (buildDist acc fw).get? i = some e →
      e.sumPrefix = wrapSum acc ((fw.take (i + 1)).map Prod.snd) := by
  induction fw with
  | nil => intro acc i e h; simp [buildDist] at h
  | cons p rest ih =>
    intro acc i e h
    obtain ⟨nm, w⟩ := p
    match i with
    | 0 =>
      simp only [buildDist, List.get?_cons_zero, Option.some.injEq] at h
      subst h
      simp [wrapSum]
    | Nat.succ j =>
      simp only [buildDist, List.get?_cons_succ] at h
      have hih := ih (wrap64 (acc + w)) j e h
      simp only [Nat.succ_eq_add_one, List.take_succ_cons, List.map_cons]
      rw [hih]
      rfl

theorem buildDistExact_get_sumPrefix (fw : List (String × Int)) :
    ∀ acc i e, (buildDistExact acc fw).get? i = some e →
      e.sumPrefix = acc + ((fw.take (i + 1)).map Prod.snd).sum := by
  induction fw with
  | nil => intro acc i e h; simp [buildDistExact] at h
  | cons p rest ih =>
    intro acc i e h
    obtain ⟨nm, w⟩ := p
    match i with
    | 0 =>
      simp only [buildDistExact, List.get?_cons_zero, Option.some.injEq] at h
      subst h
      simp
    | Nat.succ j =>
      simp only [buildDistExact, List.get?_cons_succ] at h
      have hih := ih (acc + w) j e h
      simp only [Nat.succ_eq_add_one, List.take_succ_cons, List.map_cons,
        List.sum_cons]
      omega

theorem lastSumPrefix_cons (e : functionWeightDistribution)
    (l : List functionWeightDistribution) (hl : l ≠ []) :
    lastSumPrefix (e :: l) = lastSumPrefix l := by
  match l with
  | [] => exact absurd rfl hl
  | f :: rest => rfl

theorem buildDist_last (fw : List (String × Int)) :
    ∀ acc, fw ≠ [] →
      lastSumPrefix (buildDist acc fw) = wrapSum acc (fw.map Prod.snd) := by
  induction fw with
  | nil => intro acc h; exact absurd rfl h
  | cons p rest ih =>
    intro acc _
    obtain ⟨nm, w⟩ := p
    match hr : rest with
    | [] => simp [buildDist, lastSumPrefix, wrapSum]
    | q :: rest' =>
      have hne : q :: rest' ≠ [] := by simp
      have hbne : buildDist (wrap64 (acc + w)) (q :: rest') ≠ [] := by
        obtain ⟨qn, qw⟩ := q
        simp [buildDist]
      rw [buildDist, lastSumPrefix_cons _ _ hbne, ih (wrap64 (acc + w)) hne]
      simp [wrapSum]

theorem buildDistExact_last (fw : List (String × Int)) :
    ∀ acc, fw ≠ [] →
      lastSumPrefix (buildDistExact acc fw) = acc + (fw.map Prod.snd).sum := by
  induction fw with
  | nil => intro acc h; exact absurd rfl h
  | cons p rest ih =>
    intro acc _
    obtain ⟨nm, w⟩ := p
    match hr : rest with
    | [] => simp [buildDistExact, lastSumPrefix]
    | q :: rest' =>
      have hne : q :: rest' ≠ [] := by simp
      have hbne : buildDistExact (acc + w) (q :: rest') ≠ [] := by
        obtain ⟨qn, qw⟩ := q
        simp [buildDistExact]
      rw [buildDistExact, lastSumPrefix_cons _ _ hbne, ih (acc + w) hne]
      simp
      ring

theorem buildDistExact_nonDec (fw : List (String × Int)) :
    ∀ acc, (∀ p ∈ fw, 0 ≤ p.2) →
      nonDecreasingB ((buildDistExact acc fw).map
        functionWeightDistribution.sumPrefix) = true := by
  induction fw with
  | nil => intro acc _; rfl
  | cons p rest ih =>
    intro acc hw
    obtain ⟨nm, w⟩ := p
    cases rest with
    | nil => rfl
    | cons q rest' =>
      obtain ⟨qn, qw⟩ := q
      have hrest := ih (acc + w) (fun x hx => hw x (List.mem_cons_of_mem _ hx))
      have hq : (0 : Int) ≤ qw := hw (qn, qw) (by simp)
      simp only [buildDistExact, List.map_cons, nonDecreasingB, Bool.and_eq_true,
        decide_eq_true_eq] at hrest ⊢
      exact ⟨by omega, hrest⟩

theorem buildDistExact_strict (fw : List (String × Int)) :
    ∀ acc, strictWherePositiveB (buildDistExact acc fw) = true := by
  induction fw with
  | nil => intro acc; rfl
  | cons p rest ih =>
    intro acc
    obtain ⟨nm, w⟩ := p
    cases rest with
    | nil => rfl
    | cons q rest' =>
      obtain ⟨qn, qw⟩ := q
      have hrest := ih (acc + w)
      simp only [buildDistExact, strictWherePositiveB, Bool.and_eq_true,
        decide_eq_true_eq] at hrest ⊢
      exact ⟨fun _ => by omega, hrest⟩

/-- When every weight is non-negative and the exact running total stays
below `2^63`, no int64 overflow occurs and the wrapped construction agrees
with the exact one. -/
theorem buildDist_eq_exact (fw : List (String × Int)) :
    ∀ acc, 0 ≤ acc → (∀ p ∈ fw, 0 ≤ p.2) →
      acc + (fw.map Prod.snd).sum < 2 ^ 63 →
      buildDist acc fw = buildDistExact acc fw := by
  induction fw with
  | nil => intro acc _ _ _; rfl
  | cons p rest ih =>
    intro acc hacc hw hbound
    obtain ⟨nm, w⟩ := p
    have hw0 : (0 : Int) ≤ w := hw (nm, w) (by simp)
    have hrest0 : (0 : Int) ≤ (rest.map Prod.snd).sum := by
      apply List.sum_nonneg
      intro x hx
      obtain ⟨q, hq, hqe⟩ := List.mem_map.mp hx
      rw [← hqe]
      exact hw q (List.mem_cons_of_mem _ hq)
    have hsum : acc + w + (rest.map Prod.snd).sum < 2 ^ 63 := by
      simp only [List.map_cons, List.sum_cons] at hbound
      omega
    have hwrap : wrap64 (acc + w) = acc + w := by
      apply wrap64_eq_self <;> omega
    simp only [buildDist, buildDistExact, hwrap]
    rw [ih (acc + w) (by omega) (fun q hq => hw q (List.mem_cons_of_mem _ hq)) hsum]

/-- A successful weights loop appends exactly `buildDist acc fw` to the
accumulated list, performs one store lookup per pair, and extends the
function map's key set by exactly the iterated names. -/
theorem resolveWeightsLoop_ok (frr : functionReferenceResolver) (ns : String)
    (fw : List (String × Int)) :
    ∀ (fm fm' : List (String × Function))
      (lst lst' : List functionWeightDistribution) (acc : Int) (n : Nat),
      resolveWeightsLoop frr ns fw fm lst acc = (.ok (fm', lst'), n) →
      lst' = lst ++ buildDist acc fw ∧ n = fw.length ∧
      (∀ nm, (mapLookup fm' nm).isSome = true ↔
        (mapLookup fm nm).isSome = true ∨ nm ∈ fw.map Prod.fst) := by
  induction fw with
  | nil =>
    intro fm fm' lst lst' acc n h
    simp only [resolveWeightsLoop, Prod.mk.injEq] at h
    obtain ⟨h1, h2⟩ := h
    injection h1 with h1
    obtain ⟨hfm, hlst⟩ := Prod.mk.injEq _ _ _ _ ▸ h1
    subst hfm
    subst hlst
    simp [h2.symm, buildDist]
  | cons p rest ih =>
    intro fm fm' lst lst' acc n h
    obtain ⟨nm, w⟩ := p
    rcases hinf : getInformerByNamespace frr ns with e | informer
    · simp [resolveWeightsLoop, hinf] at h
    rcases hget : storeGet informer ns nm with _ | f
    · simp [resolveWeightsLoop, hinf, hget] at h
    rcases hres : resolveWeightsLoop frr ns rest (mapInsert fm f.name f)
        (lst ++ [{ name := nm, weight := w, sumPrefix := wrap64 (acc + w) }])
        (wrap64 (acc + w)) with ⟨r, m⟩
    simp only [resolveWeightsLoop, hinf, hget, hres, Prod.mk.injEq] at h
    obtain ⟨hr, hn⟩ := h
    subst hr
    obtain ⟨hl, hlen, hkeys⟩ := ih _ _ _ _ _ _ hres
    have hname : f.name = nm := (storeGet_some hget).2
    refine ⟨?_, ?_, ?_⟩
    · rw [hl]
      simp [buildDist, List.append_assoc]
    · simp [← hn, hlen]
    · intro x
      rw [hkeys x, mapLookup_insert_isSome, hname]
      simp only [List.map_cons, List.mem_cons]
      tauto

/-- The weights loop fails exactly when the namespace has no informer (and
at least one pair remains to iterate) or some iterated function is absent
from the store. -/
theorem resolveWeightsLoop_error_iff (frr : functionReferenceResolver)
    (ns : String) (fw : List (String × Int)) :
    ∀ (fm : List (String × Function)) (lst : List functionWeightDistribution)
      (acc : Int),
      (∃ e n, resolveWeightsLoop frr ns fw fm lst acc = (.error e, n)) ↔
        (fw ≠ [] ∧ lookupNs frr.funcInformer ns = none) ∨
        (∃ store, lookupNs frr.funcInformer ns = some store ∧
          ∃ p ∈ fw, storeGet store ns p.1 = none) := by
  induction fw with
  | nil =>
    intro fm lst acc
    simp [resolveWeightsLoop]
  | cons p rest ih =>
    intro fm lst acc
    obtain ⟨nm, w⟩ := p
    rcases hl : lookupNs frr.funcInformer ns with _ | store
    · constructor
      · intro _
        exact Or.inl ⟨by simp, rfl⟩
      · intro _
        refine ⟨"informer for namespace " ++ ns ++ " not found", 0, ?_⟩
        simp [resolveWeightsLoop, getInformerByNamespace, hl]
    · have hinf : getInformerByNamespace frr ns = .ok store := by
        simp [getInformerByNamespace, hl]
      rcases hget : storeGet store ns nm with _ | f
      · constructor
        · intro _
          exact Or.inr ⟨store, rfl, (nm, w), by simp, hget⟩
        · intro _
          exact ⟨"function " ++ ns ++ "/" ++ nm ++ " does not exist", 1,
            by simp [resolveWeightsLoop, hinf, hget]⟩
      · rcases hres : resolveWeightsLoop frr ns rest (mapInsert fm f.name f)
            (lst ++ [{ name := nm, weight := w, sumPrefix := wrap64 (acc + w) }])
            (wrap64 (acc + w)) with ⟨r, m⟩
        have hcons : resolveWeightsLoop frr ns ((nm, w) :: rest) fm lst acc
            = (r, m + 1) := by
          simp [resolveWeightsLoop, hinf, hget, hres]
        have hiff : (∃ e n, resolveWeightsLoop frr ns ((nm, w) :: rest) fm lst acc
            = (.error e, n)) ↔ (∃ e, r = .error e) := by
          constructor
          · rintro ⟨e, n', he⟩
            rw [hcons] at he
            exact ⟨e, (Prod.mk.injEq _ _ _ _ ▸ he).1⟩
          · rintro ⟨e, he⟩
            exact ⟨e, m + 1, by rw [hcons, he]⟩
        have hiff2 : (∃ e, r = .error e) ↔
            (∃ e n, resolveWeightsLoop frr ns rest (mapInsert fm f.name f)
              (lst ++ [{ name := nm, weight := w, sumPrefix := wrap64 (acc + w) }])
              (wrap64 (acc + w)) = (.error e, n)) := by
          constructor
          · rintro ⟨e, he⟩
            exact ⟨e, m, by rw [hres, he]⟩
          · rintro ⟨e, n', he⟩
            rw [hres] at he
            exact ⟨e, (Prod.mk.injEq _ _ _ _ ▸ he).1⟩
        rw [hiff, hiff2, ih _ _ _]
        constructor
        · rintro (⟨_, hnone⟩ | ⟨store', hstore', p', hp', habs⟩)
          · rw [hl] at hnone
            exact absurd hnone (by simp)
          · rw [hl] at hstore'
            exact Or.inr ⟨store', hstore', p', List.mem_cons_of_mem _ hp', habs⟩
        · rintro (⟨_, hnone⟩ | ⟨store', hstore', p', hp', habs⟩)
          · exact absurd hnone (by simp)
          · injection hstore' with hstore'
            subst hstore'
            rcases List.mem_cons.mp hp' with hp'' | hp''
            · exfalso
              rw [hp''] at habs
              exact absurd habs (by simp [hget])
            · exact Or.inr ⟨store, hl, p', hp'', habs⟩

/-- `resolveByFunctionWeights` succeeds exactly when the loop does, with the
result assembled from the loop's accumulators. -/
theorem resolveByFunctionWeights_ok (frr : functionReferenceResolver)
    (ns : String) (fr : FunctionReference) (rr : resolveResult) (n : Nat)
    (h : resolveByFunctionWeights frr ns fr = (.ok rr, n)) :
    rr.rrType = resolveResultMultipleFunctions ∧
    rr.functionWtDistributionList = buildDist 0 fr.functionWeights ∧
    n = fr.functionWeights.length ∧
    (∀ nm, (mapLookup rr.functionMap nm).isSome = true ↔
      nm ∈ fr.functionWeights.map Prod.fst) := by
  unfold resolveByFunctionWeights at h
  rcases hres : resolveWeightsLoop frr ns fr.functionWeights [] [] 0 with ⟨r, m⟩
  rw [hres] at h
  rcases r with e | ⟨fm', lst'⟩
  · simp at h
  simp only [Prod.mk.injEq] at h
  obtain ⟨h1, h2⟩ := h
  injection h1 with h1
  obtain ⟨hl, hlen, hkeys⟩ := resolveWeightsLoop_ok frr ns fr.functionWeights
    _ _ _ _ _ _ hres
  subst h1
  refine ⟨rfl, by simpa using hl, by omega, ?_⟩
  intro nm
  rw [hkeys nm]
  simp [mapLookup]

/-! Claim theorems. -/

/-- C1 (counterexample): the claim says by-weights resolution builds the
distribution entries in the order the (name, weight) pairs are declared on
the trigger, stably and reproducibly, and that `{"fA":70,"fB":30}` always
yields `[("fA",70,70), ("fB",30,100)]`. But the code iterates a Go map,
whose order is arbitrary: the two iteration orders of the same map
`{"fA":70,"fB":30}` (they are permutations of one another) produce two
different distribution lists, one of which differs from the claimed one. -/
theorem C1_counterexample :
    frBA.functionWeights.Perm frAB.functionWeights ∧
    (resolveByFunctionWeights frrEx "default" frAB).1 =
      .ok { rrType := resolveResultMultipleFunctions,
            functionMap := [("fB", fB), ("fA", fA)],
            functionWtDistributionList :=
              [{ name := "fA", weight := 70, sumPrefix := 70 },
               { name := "fB", weight := 30, sumPrefix := 100 }] } ∧
    (resolveByFunctionWeights frrEx "default" frBA).1 =
      .ok { rrType := resolveResultMultipleFunctions,
            functionMap := [("fA", fA), ("fB", fB)],
            functionWtDistributionList :=
              [{ name := "fB", weight := 30, sumPrefix := 30 },
               { name := "fA", weight := 70, sumPrefix := 100 }] } ∧
    ([{ name := "fB", weight := 30, sumPrefix := 30 },
      { name := "fA", weight := 70, sumPrefix := 100 }] :
        List functionWeightDistribution) ≠
      [{ name := "fA", weight := 70, sumPrefix := 70 },
       { name := "fB", weight := 30, sumPrefix := 100 }] :=
  ⟨by decide, rfl, rfl, by decide⟩

/-- C1 (amended): whenever a by-weights resolution succeeds, the Weighted
Distribution holds exactly one entry per (name, weight) pair, in the order
the Go map iteration delivered the pairs (an arbitrary permutation of the
declared pairs, not a stable declaration order). -/
theorem C1_theorem (frr : functionReferenceResolver) (ns : String)
    (fr : FunctionReference) (rr : resolveResult) (n : Nat)
    (h : resolveByFunctionWeights frr ns fr = (.ok rr, n)) :
    rr.functionWtDistributionList.map (fun e => (e.name, e.weight)) =
      fr.functionWeights := by
  obtain ⟨_, hl, _, _⟩ := resolveByFunctionWeights_ok frr ns fr rr n h
  rw [hl, buildDist_proj]

/-- C1 (witness): the amended claim at the concrete store `{fA, fB}` and
iteration order `[("fA",70), ("fB",30)]`. -/
theorem C1_witness :
    rrABval.functionWtDistributionList.map (fun e => (e.name, e.weight)) =
      frAB.functionWeights :=
  C1_theorem frrEx "default" frAB rrABval 2 rfl

/-- C2 (counterexample): the claim asserts every entry carries the exact
cumulative sum, the final entry the total, and that prefix sums are
non-decreasing. Weights are Go `int` (int64) and nothing validates them:
a negative weight (`{"fA":1,"fB":-1}`) makes the prefix sums decrease to
`[1, 0]`; and the non-negative weights `{"fA":2^63-1,"fB":1}` overflow the
wrapping int64 running sum, so the program stores `[2^63-1, -2^63]` —
decreasing, and with the final entry carrying `-2^63`, not the true total
`2^63`. -/
theorem C2_counterexample :
    (resolveByFunctionWeights frrEx "default" frNeg).1 =
      .ok { rrType := resolveResultMultipleFunctions,
            functionMap := [("fB", fB), ("fA", fA)],
            functionWtDistributionList :=
              [{ name := "fA", weight := 1, sumPrefix := 1 },
               { name := "fB", weight := -1, sumPrefix := 0 }] } ∧
    nonDecreasingB ([{ name := "fA", weight := 1, sumPrefix := 1 },
      { name := "fB", weight := -1, sumPrefix := 0 }].map
        functionWeightDistribution.sumPrefix) = false ∧
    (resolveByFunctionWeights frrEx "default" frBig).1 =
      .ok { rrType := resolveResultMultipleFunctions,
            functionMap := [("fB", fB), ("fA", fA)],
            functionWtDistributionList :=
              [{ name := "fA", weight := 2 ^ 63 - 1, sumPrefix := 2 ^ 63 - 1 },
               { name := "fB", weight := 1, sumPrefix := -(2 ^ 63) }] } ∧
    nonDecreasingB (([⟨"fA", 2 ^ 63 - 1, 2 ^ 63 - 1⟩, ⟨"fB", 1, -(2 ^ 63)⟩] :
        List functionWeightDistribution).map
        functionWeightDistribution.sumPrefix) = false ∧
    (-(2 ^ 63) : Int) ≠ (2 ^ 63 - 1) + 1 :=
  ⟨rfl, rfl, rfl, by decide, by decide⟩

/-- C2 (amended): for every successful by-weights resolution, each entry's
`sumPrefix` is the wrapped (int64) running sum of the iterated weights up
to and including that entry, and the final entry carries the wrapped total;
when additionally every declared weight is non-negative and the exact total
stays below `2^63` (no int64 overflow), the sums are exact cumulative sums,
the final entry carries `sum(w1..wn)`, the prefix sums are non-decreasing
in list order, and they increase strictly across every entry whose weight
is positive. -/
theorem C2_theorem (frr : functionReferenceResolver) (ns : String)
    (fr : FunctionReference) (rr : resolveResult) (n : Nat)
    (h : resolveByFunctionWeights frr ns fr = (.ok rr, n)) :
    (∀ i e, rr.functionWtDistributionList.get? i = some e →
      e.sumPrefix = wrapSum 0 ((fr.functionWeights.take (i + 1)).map Prod.snd)) ∧
    lastSumPrefix rr.functionWtDistributionList =
      wrapSum 0 (fr.functionWeights.map Prod.snd) ∧
    ((∀ p ∈ fr.functionWeights, 0 ≤ p.2) →
      (fr.functionWeights.map Prod.snd).sum < 2 ^ 63 →
      (∀ i e, rr.functionWtDistributionList.get? i = some e →
        e.sumPrefix = ((fr.functionWeights.take (i + 1)).map Prod.snd).sum) ∧
      lastSumPrefix rr.functionWtDistributionList =
        (fr.functionWeights.map Prod.snd).sum ∧
      nonDecreasingB (rr.functionWtDistributionList.map
        functionWeightDistribution.sumPrefix) = true ∧
      strictWherePositiveB rr.functionWtDistributionList = true) := by
  obtain ⟨_, hl, _, _⟩ := resolveByFunctionWeights_ok frr ns fr rr n h
  refine ⟨?_, ?_, ?_⟩
  · intro i e he
    rw [hl] at he
    exact buildDist_get_sumPrefix fr.functionWeights 0 i e he
  · rw [hl]
    cases hfw : fr.functionWeights with
    | nil => simp [buildDist, lastSumPrefix, wrapSum]
    | cons q qs => exact buildDist_last (q :: qs) 0 (by simp)
  · intro hw hbound
    have hexact : buildDist 0 fr.functionWeights =
        buildDistExact 0 fr.functionWeights :=
      buildDist_eq_exact fr.functionWeights 0 le_rfl hw (by simpa using hbound)
    rw [hl, hexact]
    refine ⟨?_, ?_, buildDistExact_nonDec fr.functionWeights 0 hw,
      buildDistExact_strict fr.functionWeights 0⟩
    · intro i e he
      simpa using buildDistExact_get_sumPrefix fr.functionWeights 0 i e he
    · cases hfw : fr.functionWeights with
      | nil => simp [buildDistExact, lastSumPrefix]
      | cons q qs =>
        have := buildDistExact_last (q :: qs) 0 (by simp)
        rw [← hfw] at this ⊢
        rw [hfw] at this ⊢
        omega

/-- C2 (witness): the amended claim at the concrete store `{fA, fB}` and
weights `{"fA":70,"fB":30}` (no overflow). -/
theorem C2_witness :
    (∀ i e, rrABval.functionWtDistributionList.get? i = some e →
      e.sumPrefix = wrapSum 0 ((frAB.functionWeights.take (i + 1)).map Prod.snd)) ∧
    lastSumPrefix rrABval.functionWtDistributionList =
      wrapSum 0 (frAB.functionWeights.map Prod.snd) ∧
    ((∀ p ∈ frAB.functionWeights, 0 ≤ p.2) →
      (frAB.functionWeights.map Prod.snd).sum < 2 ^ 63 →
      (∀ i e, rrABval.functionWtDistributionList.get? i = some e →
        e.sumPrefix = ((frAB.functionWeights.take (i + 1)).map Prod.snd).sum) ∧
      lastSumPrefix rrABval.functionWtDistributionList =
        (frAB.functionWeights.map Prod.snd).sum ∧
      nonDecreasingB (rrABval.functionWtDistributionList.map
        functionWeightDistribution.sumPrefix) = true ∧
      strictWherePositiveB rrABval.functionWtDistributionList = true) :=
  C2_theorem frrEx "default" frAB rrABval 2 rfl

/-- C3: if `resolve` succeeds for a trigger, an identical second call with
no intervening delete returns the same result and the same state, and
performs no Function Store lookups (it is served from the Resolution
Cache). -/
theorem C3_theorem (frr frr₁ : functionReferenceResolver) (t : HTTPTrigger)
    (rr : resolveResult) (n : Nat)
    (h : resolve frr t = (.ok rr, frr₁, n)) :
    resolve frr₁ t = (.ok rr, frr₁, 0) := by
  rcases hc : cacheGet frr.refCache (triggerKey t) with _ | result
  · by_cases ht1 : t.functionReference.type = FunctionReferenceTypeFunctionName
    · rcases hbn : resolveByName frr t.ns t.functionReference.name with ⟨res, m⟩
      rcases res with e | rr'
      · simp only [resolve, hc, ht1, if_true, hbn, triggerKey_ns] at h
        simp at h
      · simp only [resolve, hc, ht1, if_true, hbn, triggerKey_ns] at h
        simp only [Prod.mk.injEq, Except.ok.injEq] at h
        obtain ⟨h1, h2, h3⟩ := h
        subst h1
        subst h2
        subst h3
        simp only [resolve, cacheGet_set_self]
    · by_cases ht2 : t.functionReference.type = FunctionReferenceTypeFunctionWeights
      · rcases hbw : resolveByFunctionWeights frr t.ns t.functionReference with ⟨res, m⟩
        simp only [resolve, hc, triggerKey_ns] at h
        rw [if_neg ht1, if_pos ht2, hbw] at h
        rcases res with e | rr'
        · simp at h
        · simp at h
          obtain ⟨h1, h2, h3⟩ := h
          subst h1
          subst h2
          subst h3
          simp only [resolve, cacheGet_set_self]
      · simp only [resolve, hc, triggerKey_ns] at h
        rw [if_neg ht1, if_neg ht2] at h
        simp at h
  · simp only [resolve, hc] at h
    simp only [Prod.mk.injEq, Except.ok.injEq] at h
    obtain ⟨h1, h2, h3⟩ := h
    subst h1
    subst h2
    simp only [resolve, hc]

/-- C3 (witness): after resolving the by-weights trigger `t2AB` once from
`frrEx`, the second call returns the cached result with zero store
lookups. -/
theorem C3_witness :
    resolve frrAfterT2 t2AB = (.ok rrABval, frrAfterT2, 0) :=
  C3_theorem frrEx frrAfterT2 t2AB rrABval 2 rfl

/-- C4: whenever `resolve` returns an error, the resolver state (hence the
Resolution Cache) is unchanged, nothing is cached under the trigger's key,
and an identical second call repeats exactly the same fresh computation
(same error, same state, same number of Function Store lookups) rather
than serving a cached failure. -/
theorem C4_theorem (frr frr' : functionReferenceResolver) (t : HTTPTrigger)
    (e : String) (n : Nat)
    (h : resolve frr t = (.error e, frr', n)) :
    frr' = frr ∧ cacheGet frr.refCache (triggerKey t) = none ∧
    resolve frr' t = (.error e, frr', n) := by
  have hresolve : resolve frr t = (.error e, frr', n) := h
  rcases hc : cacheGet frr.refCache (triggerKey t) with _ | result
  · by_cases ht1 : t.functionReference.type = FunctionReferenceTypeFunctionName
    · rcases hbn : resolveByName frr t.ns t.functionReference.name with ⟨res, m⟩
      rcases res with e₀ | rr'
      · simp only [resolve, hc, ht1, if_true, hbn, triggerKey_ns] at h
        simp only [Prod.mk.injEq, Except.error.injEq] at h
        obtain ⟨h1, h2, h3⟩ := h
        subst h1
        subst h2
        subst h3
        exact ⟨rfl, rfl, hresolve⟩
      · simp only [resolve, hc, ht1, if_true, hbn, triggerKey_ns] at h
        simp at h
    · by_cases ht2 : t.functionReference.type = FunctionReferenceTypeFunctionWeights
      · rcases hbw : resolveByFunctionWeights frr t.ns t.functionReference with ⟨res, m⟩
        simp only [resolve, hc, triggerKey_ns] at h
        rw [if_neg ht1, if_pos ht2, hbw] at h
        rcases res with e₀ | rr'
        · simp only [Prod.mk.injEq, Except.error.injEq] at h
          obtain ⟨h1, h2, h3⟩ := h
          subst h1
          subst h2
          subst h3
          exact ⟨rfl, rfl, hresolve⟩
        · simp at h
      · simp only [resolve, hc, triggerKey_ns] at h
        rw [if_neg ht1, if_neg ht2] at h
        simp only [Prod.mk.injEq, Except.error.injEq] at h
        obtain ⟨h1, h2, h3⟩ := h
        subst h1
        subst h2
        subst h3
        exact ⟨rfl, rfl, hresolve⟩
  · simp only [resolve, hc] at h
    simp at h

/-- C4 (witness): resolving the by-name trigger `tMissing` (its function
`f9` is absent) errors, leaves `frrEx` unchanged with nothing cached under
the key, and repeats identically. -/
theorem C4_witness :
    frrEx = frrEx ∧ cacheGet frrEx.refCache (triggerKey tMissing) = none ∧
    resolve frrEx tMissing =
      (.error "function default/f9 does not exist", frrEx, 1) :=
  C4_theorem frrEx frrEx tMissing "function default/f9 does not exist" 1 rfl

theorem resolveByFunctionWeights_error (frr : functionReferenceResolver)
    (ns : String) (fr : FunctionReference) (e : String) (n : Nat)
    (h : resolveByFunctionWeights frr ns fr = (.error e, n)) :
    resolveWeightsLoop frr ns fr.functionWeights [] [] 0 = (.error e, n) := by
  unfold resolveByFunctionWeights at h
  rcases hres : resolveWeightsLoop frr ns fr.functionWeights [] [] 0 with ⟨r, m⟩
  rw [hres] at h
  rcases r with e₀ | p
  · simp only [Prod.mk.injEq, Except.error.injEq] at h
    obtain ⟨h1, h2⟩ := h
    rw [h1, h2]
  · obtain ⟨fm, lst⟩ := p
    simp at h

theorem resolveByFunctionWeights_of_loop_error (frr : functionReferenceResolver)
    (ns : String) (fr : FunctionReference) (e : String) (n : Nat)
    (h : resolveWeightsLoop frr ns fr.functionWeights [] [] 0 = (.error e, n)) :
    resolveByFunctionWeights frr ns fr = (.error e, n) := by
  unfold resolveByFunctionWeights
  rw [h]

/-- For a by-weights trigger, the resolver's error condition reduces to the
weights-loop one. -/
theorem errorCondition_weights (frr : functionReferenceResolver)
    (t : HTTPTrigger)
    (ht2 : t.functionReference.type = FunctionReferenceTypeFunctionWeights) :
    errorCondition frr t ↔
      (t.functionReference.functionWeights ≠ [] ∧
        lookupNs frr.funcInformer t.ns = none) ∨
      (∃ store, lookupNs frr.funcInformer t.ns = some store ∧
        ∃ p ∈ t.functionReference.functionWeights,
          storeGet store t.ns p.1 = none) := by
  have hne : t.functionReference.type ≠ FunctionReferenceTypeFunctionName := by
    rw [ht2]
    decide
  unfold errorCondition referencedNames
  simp only [if_neg hne, if_pos ht2]
  constructor
  · rintro (⟨_, h1⟩ | (⟨h1, h2⟩ | ⟨store, hs, nm, hnm, habs⟩))
    · exact absurd ht2 h1
    · exact Or.inl ⟨by simpa using h1, h2⟩
    · obtain ⟨p, hp, hpe⟩ := List.mem_map.mp hnm
      exact Or.inr ⟨store, hs, p, hp, by rw [hpe]; exact habs⟩
  · rintro (⟨h1, h2⟩ | ⟨store, hs, p, hp, habs⟩)
    · exact Or.inr (Or.inl ⟨by simpa using h1, h2⟩)
    · exact Or.inr (Or.inr ⟨store, hs, p.1, List.mem_map_of_mem _ hp, habs⟩)

/-- C5 (amended): on a cache miss, `resolve` errors exactly when the
reference kind is unrecognized, or the namespace has no registered store
while the trigger references at least one function, or a referenced
function is absent from the store; and a successful resolution performs
exactly one store lookup per referenced function (no retries). The claim's
unconditional "no store registered ⇒ error" fails for a by-weights trigger
with an empty weights map, which performs no lookups and succeeds. -/
theorem C5_theorem (frr : functionReferenceResolver) (t : HTTPTrigger)
    (hmiss : cacheGet frr.refCache (triggerKey t) = none) :
    ((∃ e frr' n, resolve frr t = (.error e, frr', n)) ↔
      errorCondition frr t) ∧
    (∀ rr frr' n, resolve frr t = (.ok rr, frr', n) →
      n = (referencedNames t.functionReference).length) := by
  by_cases ht1 : t.functionReference.type = FunctionReferenceTypeFunctionName
  · have hnames : referencedNames t.functionReference =
        [t.functionReference.name] := by
      unfold referencedNames
      rw [if_pos ht1]
    have hnw : t.functionReference.type ≠ FunctionReferenceTypeFunctionWeights := by
      rw [ht1]
      decide
    rcases hl : lookupNs frr.funcInformer t.ns with _ | store
    · have hres : resolve frr t =
          (.error ("informer for namespace " ++ t.ns ++ " not found"), frr, 0) := by
        simp only [resolve, hmiss, triggerKey_ns]
        rw [if_pos ht1]
        simp [resolveByName, getInformerByNamespace, hl]
      constructor
      · constructor
        · intro _
          exact Or.inr (Or.inl ⟨by simp [hnames], hl⟩)
        · intro _
          exact ⟨_, frr, 0, hres⟩
      · intro rr frr' n hok
        rw [hres] at hok
        simp at hok
    · rcases hg : storeGet store t.ns t.functionReference.name with _ | f
      · have hres : resolve frr t =
            (.error ("function " ++ t.ns ++ "/" ++ t.functionReference.name ++
              " does not exist"), frr, 1) := by
          simp only [resolve, hmiss, triggerKey_ns]
          rw [if_pos ht1]
          simp [resolveByName, getInformerByNamespace, hl, hg]
        constructor
        · constructor
          · intro _
            exact Or.inr (Or.inr ⟨store, hl, t.functionReference.name,
              by simp [hnames], hg⟩)
          · intro _
            exact ⟨_, frr, 1, hres⟩
        · intro rr frr' n hok
          rw [hres] at hok
          simp at hok
      · have hname := (storeGet_some hg).2
        have hres : resolve frr t =
            (.ok { rrType := resolveResultSingleFunction,
                   functionMap := [(t.functionReference.name, f)],
                   functionWtDistributionList := [] },
             afterSet frr (triggerKey t)
               { rrType := resolveResultSingleFunction,
                 functionMap := [(t.functionReference.name, f)],
                 functionWtDistributionList := [] }, 1) := by
          simp only [resolve, hmiss, triggerKey_ns]
          rw [if_pos ht1]
          simp [resolveByName, getInformerByNamespace, hl, hg, mapInsert, hname,
            afterSet]
        constructor
        · refine iff_of_false ?_ ?_
          · rintro ⟨e, frr', n, he⟩
            rw [hres] at he
            simp at he
          · rintro (⟨h1, _⟩ | (⟨_, h2⟩ | ⟨store', hs', nm, hnm, habs⟩))
            · exact absurd ht1 h1
            · rw [hl] at h2
              simp at h2
            · rw [hl] at hs'
              injection hs' with hs'
              subst hs'
              rw [hnames] at hnm
              simp only [List.mem_singleton] at hnm
              subst hnm
              rw [hg] at habs
              simp at habs
        · intro rr frr' n hok
          rw [hres] at hok
          simp only [Prod.mk.injEq] at hok
          rw [hnames]
          simp [← hok.2.2]
  · by_cases ht2 : t.functionReference.type = FunctionReferenceTypeFunctionWeights
    · have hnames : referencedNames t.functionReference =
          t.functionReference.functionWeights.map Prod.fst := by
        unfold referencedNames
        rw [if_neg ht1, if_pos ht2]
      rcases hbw : resolveByFunctionWeights frr t.ns t.functionReference
        with ⟨res, m⟩
      rcases res with e₀ | rr₀
      · have hres : resolve frr t = (.error e₀, frr, m) := by
          simp only [resolve, hmiss, triggerKey_ns]
          rw [if_neg ht1, if_pos ht2, hbw]
        have hloop := resolveByFunctionWeights_error frr t.ns
          t.functionReference e₀ m hbw
        constructor
        · refine iff_of_true ⟨e₀, frr, m, hres⟩ ?_
          rw [errorCondition_weights frr t ht2]
          exact (resolveWeightsLoop_error_iff frr t.ns
            t.functionReference.functionWeights [] [] 0).mp ⟨e₀, m, hloop⟩
        · intro rr frr' n hok
          rw [hres] at hok
          simp at hok
      · have hres : resolve frr t =
            (.ok rr₀, afterSet frr (triggerKey t) rr₀, m) := by
          simp only [resolve, hmiss, triggerKey_ns]
          rw [if_neg ht1, if_pos ht2, hbw]
          rfl
        obtain ⟨_, _, hlen, _⟩ := resolveByFunctionWeights_ok frr t.ns
          t.functionReference rr₀ m hbw
        constructor
        · refine iff_of_false ?_ ?_
          · rintro ⟨e, frr', n, he⟩
            rw [hres] at he
            simp at he
          · intro hcond
            rw [errorCondition_weights frr t ht2] at hcond
            obtain ⟨e, n, hloop⟩ := (resolveWeightsLoop_error_iff frr t.ns
              t.functionReference.functionWeights [] [] 0).mpr hcond
            rw [resolveByFunctionWeights_of_loop_error frr t.ns
              t.functionReference e n hloop] at hbw
            simp at hbw
        · intro rr frr' n hok
          rw [hres] at hok
          simp only [Prod.mk.injEq] at hok
          rw [hnames]
          simp [← hok.2.2, hlen]
    · have hnames : referencedNames t.functionReference = [] := by
        unfold referencedNames
        rw [if_neg ht1, if_neg ht2]
      have hres : resolve frr t =
          (.error ("unrecognized function reference type " ++
            t.functionReference.type), frr, 0) := by
        simp only [resolve, hmiss, triggerKey_ns]
        rw [if_neg ht1, if_neg ht2]
      constructor
      · refine iff_of_true ⟨_, frr, 0, hres⟩ ?_
        exact Or.inl ⟨ht1, ht2⟩
      · intro rr frr' n hok
        rw [hres] at hok
        simp at hok

/-- C5 (counterexample): the claim's iff demands an error whenever no
Function Store is registered for the trigger's namespace, but a by-weights
trigger with an empty weights map performs no lookups and resolves
successfully against a resolver with no stores at all. -/
theorem C5_counterexample :
    lookupNs frrNoStores.funcInformer tEmptyWeights.ns = none ∧
    (resolve frrNoStores tEmptyWeights).1 =
      .ok { rrType := resolveResultMultipleFunctions, functionMap := [],
            functionWtDistributionList := [] } ∧
    ¬ ∃ e frr' n, resolve frrNoStores tEmptyWeights = (.error e, frr', n) :=
  ⟨rfl, rfl, fun ⟨e, frr', n, he⟩ => by
    have hres : resolve frrNoStores tEmptyWeights =
        (.ok rrEmptyVal, frrNoStoresAfter, 0) := rfl
    rw [hres] at he
    simp at he⟩

/-- C5 (witness): the amended claim at the by-name trigger `tMissing`,
whose function `f9` is absent from the `default` store. -/
theorem C5_witness :
    ((∃ e frr' n, resolve frrEx tMissing = (.error e, frr', n)) ↔
      errorCondition frrEx tMissing) ∧
    (∀ rr frr' n, resolve frrEx tMissing = (.ok rr, frr', n) →
      n = (referencedNames tMissing.functionReference).length) :=
  C5_theorem frrEx tMissing rfl

/-- C6: `delete` is never an error, touches nothing but the cache, removes
at most the entry under the exact three-field key (so a mismatched version
token leaves a stale entry retrievable), every other entry is unaffected,
and deleting an absent key is a no-op on the whole state. -/
theorem C6_theorem (frr : functionReferenceResolver) (ns nm rv : String) :
    (delete frr ns nm rv).2 = none ∧
    (delete frr ns nm rv).1.funcInformer = frr.funcInformer ∧
    cacheGet (delete frr ns nm rv).1.refCache
      { ns := ns, triggerName := nm, triggerResourceVersion := rv } = none ∧
    (∀ k', k' ≠ { ns := ns, triggerName := nm, triggerResourceVersion := rv } →
      cacheGet (delete frr ns nm rv).1.refCache k' = cacheGet frr.refCache k') ∧
    (cacheGet frr.refCache
        { ns := ns, triggerName := nm, triggerResourceVersion := rv } = none →
      (delete frr ns nm rv).1 = frr) := by
  refine ⟨rfl, rfl, cacheGet_delete_self _ _, ?_, ?_⟩
  · intro k' hk
    exact cacheGet_delete_ne _ _ _ hk
  · intro habs
    show functionReferenceResolver.mk
      (cacheDelete frr.refCache
        { ns := ns, triggerName := nm, triggerResourceVersion := rv })
      frr.funcInformer = frr
    rw [cacheDelete_absent _ _ habs]

/-- C7: a by-name resolution whose referenced function exists in its
namespace's store returns, without error, a single-function result whose
function map holds exactly one entry, mapping the referenced name to the
function object found in the store. -/
theorem C7_theorem (frr : functionReferenceResolver) (t : HTTPTrigger)
    (store : FuncStore) (f : Function)
    (hmiss : cacheGet frr.refCache (triggerKey t) = none)
    (ht : t.functionReference.type = FunctionReferenceTypeFunctionName)
    (hstore : lookupNs frr.funcInformer t.ns = some store)
    (hf : storeGet store t.ns t.functionReference.name = some f) :
    (resolve frr t).1 =
      .ok { rrType := resolveResultSingleFunction,
            functionMap := [(t.functionReference.name, f)],
            functionWtDistributionList := [] } := by
  have hname := (storeGet_some hf).2
  have hbn : resolveByName frr t.ns t.functionReference.name =
      (.ok { rrType := resolveResultSingleFunction,
             functionMap := [(t.functionReference.name, f)],
             functionWtDistributionList := [] }, 1) := by
    simp [resolveByName, getInformerByNamespace, hstore, hf, mapInsert, hname]
  simp only [resolve, hmiss, triggerKey_ns]
  rw [if_pos ht, hbn]

/-- C7 (witness): resolving the by-name trigger `t1A` over the store
holding `fA` yields the single-entry result `{fA ↦ fA}` with no error. -/
theorem C7_witness :
    (resolve frrEx t1A).1 =
      .ok { rrType := resolveResultSingleFunction,
            functionMap := [("fA", fA)],
            functionWtDistributionList := [] } :=
  C7_theorem frrEx t1A storeEx fA rfl rfl rfl rfl

theorem buildDist_names (acc : Int) (fw : List (String × Int)) :
    (buildDist acc fw).map functionWeightDistribution.name = fw.map Prod.fst := by
  induction fw generalizing acc with
  | nil => rfl
  | cons p rest ih =>
    obtain ⟨nm, w⟩ := p
    simp [buildDist, ih]

/-- A successful `resolveByName` call returns the single-function result
for the object found in the store, after one lookup. -/
theorem resolveByName_ok (frr : functionReferenceResolver) (ns nm : String)
    (rr : resolveResult) (n : Nat)
    (h : resolveByName frr ns nm = (.ok rr, n)) :
    rr.rrType = resolveResultSingleFunction ∧ n = 1 ∧
    rr.functionWtDistributionList = [] ∧
    ∃ store f, lookupNs frr.funcInformer ns = some store ∧
      storeGet store ns nm = some f ∧ rr.functionMap = [(nm, f)] := by
  rcases hl : lookupNs frr.funcInformer ns with _ | store
  · simp [resolveByName, getInformerByNamespace, hl] at h
  rcases hg : storeGet store ns nm with _ | f
  · simp [resolveByName, getInformerByNamespace, hl, hg] at h
  · have hname := (storeGet_some hg).2
    simp only [resolveByName, getInformerByNamespace, hl, hg, mapInsert,
      Prod.mk.injEq] at h
    obtain ⟨h1, h2⟩ := h
    injection h1 with h1
    subst h1
    exact ⟨rfl, h2.symm, rfl, store, f, rfl, hg, by simp [hname]⟩

/-- C8: if every cached result satisfies the mapping/distribution invariant
(non-empty distribution list ⇒ the function map's key set equals the set of
names in the list), then any result a successful `resolve` returns
satisfies it, and every entry of the resulting cache still satisfies it:
the resolver only ever produces and caches invariant-respecting results. -/
theorem C8_theorem (frr frr' : functionReferenceResolver) (t : HTTPTrigger)
    (rr : resolveResult) (n : Nat)
    (hcache : ∀ k r, cacheGet frr.refCache k = some r → rrInv r)
    (h : resolve frr t = (.ok rr, frr', n)) :
    rrInv rr ∧ ∀ k r, cacheGet frr'.refCache k = some r → rrInv r := by
  rcases hc : cacheGet frr.refCache (triggerKey t) with _ | result
  · by_cases ht1 : t.functionReference.type = FunctionReferenceTypeFunctionName
    · rcases hbn : resolveByName frr t.ns t.functionReference.name with ⟨res, m⟩
      rcases res with e | rr'
      · simp only [resolve, hc, ht1, if_true, hbn, triggerKey_ns] at h
        simp at h
      · simp only [resolve, hc, ht1, if_true, hbn, triggerKey_ns] at h
        simp only [Prod.mk.injEq, Except.ok.injEq] at h
        obtain ⟨h1, h2, h3⟩ := h
        subst h1
        subst h2
        obtain ⟨_, _, hempty, _⟩ := resolveByName_ok frr t.ns
          t.functionReference.name rr' m hbn
        have hinv : rrInv rr' := fun hne => absurd hempty hne
        refine ⟨hinv, ?_⟩
        intro k r hkr
        rcases cacheGet_set_cases hkr with ⟨_, hr⟩ | hold
        · rw [hr]
          exact hinv
        · exact hcache k r hold
    · by_cases ht2 : t.functionReference.type = FunctionReferenceTypeFunctionWeights
      · rcases hbw : resolveByFunctionWeights frr t.ns t.functionReference
          with ⟨res, m⟩
        simp only [resolve, hc, triggerKey_ns] at h
        rw [if_neg ht1, if_pos ht2, hbw] at h
        rcases res with e | rr'
        · simp at h
        · simp at h
          obtain ⟨h1, h2, h3⟩ := h
          subst h1
          subst h2
          obtain ⟨_, hl, _, hkeys⟩ := resolveByFunctionWeights_ok frr t.ns
            t.functionReference rr' m hbw
          have hinv : rrInv rr' := by
            intro _ nm
            rw [hkeys nm, hl, buildDist_names]
          refine ⟨hinv, ?_⟩
          intro k r hkr
          rcases cacheGet_set_cases hkr with ⟨_, hr⟩ | hold
          · rw [hr]
            exact hinv
          · exact hcache k r hold
      · simp only [resolve, hc, triggerKey_ns] at h
        rw [if_neg ht1, if_neg ht2] at h
        simp at h
  · simp only [resolve, hc] at h
    simp only [Prod.mk.injEq, Except.ok.injEq] at h
    obtain ⟨h1, h2, h3⟩ := h
    subst h1
    subst h2
    exact ⟨hcache _ _ hc, hcache⟩

/-- C8 (witness): the invariant at the by-weights resolution of `t2AB` from
the empty-cache resolver `frrEx`. -/
theorem C8_witness :
    rrInv rrABval ∧
    ∀ k r, cacheGet frrAfterT2.refCache k = some r → rrInv r :=
  C8_theorem frrEx frrAfterT2 t2AB rrABval 2
    (by intro k r hkr; simp [frrEx, cacheGet] at hkr) rfl

/-- C10: a successful cache-miss resolution's type tag matches the
trigger's reference kind — by-name yields the single-function tag with an
empty distribution list; by-weights yields the multiple-functions tag with
exactly one entry per iterated (name, weight) pair, the entry names being
pairwise distinct whenever the weights map's keys are. -/
theorem C10_theorem (frr frr' : functionReferenceResolver) (t : HTTPTrigger)
    (rr : resolveResult) (n : Nat)
    (hmiss : cacheGet frr.refCache (triggerKey t) = none)
    (h : resolve frr t = (.ok rr, frr', n)) :
    (t.functionReference.type = FunctionReferenceTypeFunctionName →
      rr.rrType = resolveResultSingleFunction ∧
      rr.functionWtDistributionList = []) ∧
    (t.functionReference.type = FunctionReferenceTypeFunctionWeights →
      rr.rrType = resolveResultMultipleFunctions ∧
      rr.functionWtDistributionList.map (fun e => (e.name, e.weight)) =
        t.functionReference.functionWeights ∧
      ((t.functionReference.functionWeights.map Prod.fst).Nodup →
        (rr.functionWtDistributionList.map
          functionWeightDistribution.name).Nodup)) := by
  by_cases ht1 : t.functionReference.type = FunctionReferenceTypeFunctionName
  · rcases hbn : resolveByName frr t.ns t.functionReference.name with ⟨res, m⟩
    rcases res with e | rr'
    · simp only [resolve, hmiss, ht1, if_true, hbn, triggerKey_ns] at h
      simp at h
    · simp only [resolve, hmiss, ht1, if_true, hbn, triggerKey_ns] at h
      simp only [Prod.mk.injEq, Except.ok.injEq] at h
      obtain ⟨h1, _, _⟩ := h
      subst h1
      obtain ⟨htag, _, hempty, _⟩ := resolveByName_ok frr t.ns
        t.functionReference.name rr' m hbn
      refine ⟨fun _ => ⟨htag, hempty⟩, fun ht2 => ?_⟩
      rw [ht1] at ht2
      exact absurd ht2 (by decide)
  · by_cases ht2 : t.functionReference.type = FunctionReferenceTypeFunctionWeights
    · rcases hbw : resolveByFunctionWeights frr t.ns t.functionReference
        with ⟨res, m⟩
      simp only [resolve, hmiss, triggerKey_ns] at h
      rw [if_neg ht1, if_pos ht2, hbw] at h
      rcases res with e | rr'
      · simp at h
      · simp at h
        obtain ⟨h1, _, _⟩ := h
        subst h1
        obtain ⟨htag, hl, _, _⟩ := resolveByFunctionWeights_ok frr t.ns
          t.functionReference rr' m hbw
        refine ⟨fun ht1' => absurd ht1' ht1, fun _ => ⟨htag, ?_, ?_⟩⟩
        · rw [hl, buildDist_proj]
        · intro hnodup
          rw [hl, buildDist_names]
          exact hnodup
    · simp only [resolve, hmiss, triggerKey_ns] at h
      rw [if_neg ht1, if_neg ht2] at h
      simp at h

/-- C10 (witness): tag consistency at the concrete by-weights resolution of
`t2AB` from `frrEx`. -/
theorem C10_witness :
    (t2AB.functionReference.type = FunctionReferenceTypeFunctionName →
      rrABval.rrType = resolveResultSingleFunction ∧
      rrABval.functionWtDistributionList = []) ∧
    (t2AB.functionReference.type = FunctionReferenceTypeFunctionWeights →
      rrABval.rrType = resolveResultMultipleFunctions ∧
      rrABval.functionWtDistributionList.map (fun e => (e.name, e.weight)) =
        t2AB.functionReference.functionWeights ∧
      ((t2AB.functionReference.functionWeights.map Prod.fst).Nodup →
        (rrABval.functionWtDistributionList.map
          functionWeightDistribution.name).Nodup)) :=
  C10_theorem frrEx frrAfterT2 t2AB rrABval 2 rfl rfl

end router
